import Mathlib

/-!
Verification of the candidate-selection pipeline (executor.py / async_stress_test.py).

The repository runs generated candidate programs as subprocesses.  We shallowly
embed the pipeline's pure decision logic: one subprocess execution is modelled
by its observable result, a pair `(success, output)` exactly as both
`CodeExecutor.run` and `CodeExecutor.run_file` return it, and a whole executor
is an abstract function `ex : γ → String → Bool × String` from a candidate and
an input to that pair.  `asyncio.gather` returns results in the order of its
argument list, so sequential `List` traversals model the gathered batches;
the one place where completion order is observable (the shared vote
aggregation in the oracle builders) is modelled explicitly by a schedule
parameter.
-/

namespace Veritas

variable {α β γ κ : Type}

/-- Model of Python whitespace characters (space, tab, newline, carriage
return, vertical tab, form feed) as used by `str.strip()`. -/
def isPySpace (c : Char) : Bool :=
  c = ' ' || c = '\t' || c = '\n' || c = '\r' || c.toNat = 11 || c.toNat = 12

/-- Model of Python `str.strip()`: removes leading and trailing whitespace. -/
def pyStrip (s : String) : String :=
  (((s.toList.dropWhile isPySpace).reverse.dropWhile isPySpace).reverse).asString

/-- Trimming of trailing whitespace only (Python `str.rstrip()`); this is the
comparison the specification's words describe, used to compare against the
`str.strip()` comparison the code performs. -/
def pyRStrip (s : String) : String :=
  ((s.toList.reverse.dropWhile isPySpace).reverse).asString

/-- Observable behaviour of one subprocess launch: the process either ran to
completion within the deadline (with an exit code and captured streams), hit
the deadline, or failed to launch at all (e.g. missing interpreter), which in
Python surfaces as an exception from `create_subprocess_exec`. -/
inductive ProcEvent where
  | completed (exitCode : Int) (stdout : String) (stderr : String)
  | timedOut
  | launchFailure (msg : String)

/-- Embedding of `CodeExecutor.run_file` (executor.py, lines 17-52): every
event is mapped to a returned `(success, output)` pair; the surrounding
`try/except Exception` turns launch failures into `(False, "EXCEPTION: ...")`,
so no exception escapes. -/
def runFile : ProcEvent → Bool × String
  | .completed ec out err => if ec ≠ 0 then (false, "ERROR: " ++ pyStrip err) else (true, pyStrip out)
  | .timedOut => (false, "TIMEOUT")
  | .launchFailure msg => (false, "EXCEPTION: " ++ msg)

/-- Embedding of `CodeExecutor.run` (async_stress_test.py, lines 64-92).  Only
`asyncio.TimeoutError` is caught there: a launch-time error propagates out of
the coroutine, which we model with `Except.error`. -/
def asyncRun : ProcEvent → Except String (Bool × String)
  | .completed ec out err =>
      if ec ≠ 0 then .ok (false, if pyStrip err = "" then "__ERROR__" else pyStrip err)
      else .ok (true, pyStrip out)
  | .timedOut => .ok (false, "__TIMEOUT__")
  | .launchFailure msg => .error msg

/-- One sample test check as done by `self_debug` and `verify_sample_tests`:
the execution must succeed and stripped output must equal stripped expected
output (`out.strip() != expected.strip()` in the source). -/
def sampleOk (ex : γ → String → Bool × String) (c : γ) (t : String × String) : Bool :=
  (ex c t.1).1 && (pyStrip (ex c t.1).2 == pyStrip t.2)

/-- A candidate passes all sample tests (the `all_ok` loop of `self_debug` and
the body of `check_candidate` in `verify_sample_tests`). -/
def allSamplesOk (ex : γ → String → Bool × String) (c : γ) (samples : List (String × String)) : Bool :=
  samples.all (sampleOk ex c)

/-- Embedding of `verify_sample_tests` (executor.py, lines 60-83): keep, in
order, the candidates that pass every sample test (`asyncio.gather` preserves
the order of its arguments). -/
def verifySampleTests (ex : γ → String → Bool × String) (cands : List γ) (samples : List (String × String)) : List γ :=
  cands.filter (fun c => allSamplesOk ex c samples)

/-- The claim-side sample check: execution succeeds and output equals the
expected output after trimming only trailing whitespace (the specification's
words); compare with `allSamplesOk`, which strips both ends. -/
def passesRStrip (ex : γ → String → Bool × String) (c : γ) (samples : List (String × String)) : Bool :=
  samples.all (fun t => (ex c t.1).1 && (pyRStrip (ex c t.1).2 == pyRStrip t.2))

/-- Embedding of `StressTester.self_debug` (async_stress_test.py, lines
105-127), instrumented with its trace.  `gen n` is the candidate the generator
returns for `context = "debug attempt n"`.  The fuel argument counts the
remaining iterations of `while attempt <= self.max_debug_attempts`.  The
result triple is (the Python return value, the candidates tested in order,
the number of generator invocations made). -/
def selfDebugTrace (ex : γ → String → Bool × String) (gen : Nat → γ) (samples : List (String × String)) : Nat → γ → Nat → Option γ × List γ × Nat
  | 0, _, _ => (none, [], 0)
  | fuel + 1, cur, attempt =>
      if allSamplesOk ex cur samples then (some cur, [cur], 0)
      else
        let r := selfDebugTrace ex gen samples fuel (gen (attempt + 1)) (attempt + 1)
        (r.1, cur :: r.2.1, r.2.2 + 1)

/-- Instrumented `self_debug`: component `.1` is the Python return value; `.2.1`
lists the candidates that were tested against the sample tests, in order;
`.2.2` counts calls to the generator.  The loop guard `attempt ≤ maxAttempts`
with `attempt` starting at 0 allows `maxAttempts + 1` iterations. -/
def self_debug (ex : γ → String → Bool × String) (gen : Nat → γ) (samples : List (String × String)) (c : γ) (maxAttempts : Nat) : Option γ × List γ × Nat :=
  selfDebugTrace ex gen samples (maxAttempts + 1) c 0

/-- Number of occurrences of `v` in `outs` (a `collections.Counter` count). -/
def countOcc (outs : List String) (v : String) : Nat :=
  (outs.filter (fun x => x == v)).length

/-- Distinct values of a list in first-encounter order: the key order of a
Python `Counter`/`dict` built by insertion. -/
def firstKeys : List String → List String
  | [] => []
  | x :: xs => x :: (firstKeys xs).filter (fun y => !(y == x))

/-- Model of Python `max(iterable, key=f)` (and of `heapq.nlargest(1, ...)`,
which `Counter.most_common(1)` uses): the first element attaining the maximal
key; the accumulator is replaced only on strictly greater keys. -/
def pyMaxBy (f : β → Nat) : List β → Option β
  | [] => none
  | b :: bs => some (bs.foldl (fun best x => if f best < f x then x else best) b)

/-- Embedding of `Counter(outs).most_common(1)[0]` (with `none` for an empty
list): the pair of the first-encountered value with maximal count, and that
count. -/
def mostCommon1 (outs : List String) : Option (String × Nat) :=
  pyMaxBy (fun p => p.2) ((firstKeys outs).map (fun k => (k, countOcc outs k)))

/-- The votes collected for input index `i`: the outputs of the successful
executions, one per stress candidate, in the order the candidate results are
listed (`results` holds, per stress candidate, its `(success, output)` result
for every input, as produced by `run_file_on_tests` / the gathered `runs`). -/
def votesFor (results : List (List (Bool × String))) (i : Nat) : List String :=
  results.filterMap (fun r =>
    match r.get? i with
    | some (true, out) => some out
    | _ => none)

/-- Embedding of the oracle construction shared by
`build_stress_predicted_tests` (executor.py, lines 86-120) and
`build_stress_predicted_subset` (async_stress_test.py, lines 129-155): for
each input index, if the modal vote count reaches `minAgree`, the index is
mapped to the modal output.  An index with no votes has no entry (its
`results_by_test` key is never created, and `if not outputs: continue`). -/
def buildOracle (results : List (List (Bool × String))) (n minAgree : Nat) : List (Nat × String) :=
  (List.range n).filterMap (fun idx =>
    match mostCommon1 (votesFor results idx) with
    | none => none
    | some vc => if minAgree ≤ vc.2 then some (idx, vc.1) else none)

/-- Reordering of the per-candidate result lists by a completion schedule:
`sched` lists the positions of the stress candidates in the order their
(concurrently run) executions completed and appended their votes. -/
def schedList (results : List (List (Bool × String))) (sched : List Nat) : List (List (Bool × String)) :=
  sched.filterMap (fun j => results.get? j)

/-- Votes for index `i` as aggregated under completion schedule `sched`. -/
def schedVotes (results : List (List (Bool × String))) (sched : List Nat) (i : Nat) : List String :=
  votesFor (schedList results sched) i

/-- The oracle as built when the concurrent stress executions complete (and
hence append their votes) in the order given by `sched`; the source's
behaviour for a given run corresponds to some permutation `sched` of the
candidate positions. -/
def buildOracleSched (results : List (List (Bool × String))) (sched : List Nat) (n minAgree : Nat) : List (Nat × String) :=
  buildOracle (schedList results sched) n minAgree

/-- Maximum of a list of naturals (0 for the empty list). -/
def listMax (l : List Nat) : Nat := l.foldr max 0

/-- The maximal occurrence count over a vote list. -/
def maxVoteCount (outs : List String) : Nat := listMax (outs.map (countOcc outs))

/-- Embedding of `filter_by_stress_tests` (executor.py, lines 123-155): with a
non-empty oracle, a candidate survives iff for every oracle entry its
execution on that input succeeds and the stripped output equals the stripped
prediction.  Iterating the entries sorted by key, as the source does, checks
the same conjunction. -/
def filterByStressTests (ex : γ → String → Bool × String) (cands : List γ) (oracle : List (Nat × String)) (inputs : List String) : List γ :=
  if oracle.isEmpty then cands
  else cands.filter (fun c => oracle.all (fun p =>
    (ex c (inputs.getD p.1 "")).1 && (pyStrip (ex c (inputs.getD p.1 "")).2 == pyStrip p.2)))

/-- Embedding of `filter_candidates_by_tests` (async_stress_test.py, lines
157-171): same shape, but the output is compared to the prediction without
stripping (`out != tests[idx]`). -/
def filterCandidatesByTests (ex : γ → String → Bool × String) (cands : List γ) (tests : List (Nat × String)) (inputs : List String) : List γ :=
  if tests.isEmpty then cands
  else cands.filter (fun c => tests.all (fun p =>
    (ex c (inputs.getD p.1 "")).1 && ((ex c (inputs.getD p.1 "")).2 == p.2)))

/-- A candidate's output vector over all inputs, with `sentinel` standing in
for failed executions (`"__ERR__"` in async_stress_test.py's `majority_vote`,
`"__ERROR__"` in executor.py's). -/
def outputVectorWith (sentinel : String) (ex : γ → String → Bool × String) (c : γ) (inputs : List String) : List String :=
  inputs.map (fun inp => if (ex c inp).1 then (ex c inp).2 else sentinel)

/-- The gathered (candidate, output-vector) rows of `majority_vote`, in
candidate order (`asyncio.gather` preserves argument order). -/
def voteRows (ex : γ → String → Bool × String) (cands : List γ) (inputs : List String) : List (γ × List String) :=
  cands.map (fun c => (c, outputVectorWith "__ERR__" ex c inputs))

/-- One step of building the cluster map `defaultdict(list)`: append the
candidate to its vector's entry, creating the entry at the end on first
encounter (dict insertion order). -/
def addRow [DecidableEq κ] (acc : List (κ × List α)) (r : α × κ) : List (κ × List α) :=
  if acc.any (fun e => decide (e.1 = r.2)) then
    acc.map (fun e => if e.1 = r.2 then (e.1, e.2 ++ [r.1]) else e)
  else acc ++ [(r.2, [r.1])]

/-- The cluster map of `majority_vote`: rows folded into a key-ordered
association list, keys in first-encounter order, members in row order. -/
def clustersFold [DecidableEq κ] (rows : List (α × κ)) : List (κ × List α) :=
  rows.foldl addRow []

/-- Embedding of `max(clusters.values(), key=len)` (equivalently
`max(cluster.items(), key=lambda kv: len(kv[1]))`): the first cluster of
maximal size. -/
def pickLargest (cs : List (κ × List α)) : Option (κ × List α) :=
  pyMaxBy (fun e => e.2.length) cs

/-- Embedding of `majority_vote` (async_stress_test.py, lines 173-193 and
executor.py, lines 158-192): empty pool gives `None`; otherwise cluster the
rows by output vector and return the first member of the first largest
cluster. -/
def majorityVote (ex : γ → String → Bool × String) (cands : List γ) (inputs : List String) : Option γ :=
  match cands with
  | [] => none
  | c :: cs => (pickLargest (clustersFold (voteRows ex (c :: cs) inputs))).bind (fun e => e.2.head?)

/-- Claim-side notion for consensus: the number of rows sharing vector `k`. -/
def groupSize [DecidableEq κ] (rows : List (α × κ)) (k : κ) : Nat :=
  (rows.filter (fun r => decide (r.2 = k))).length

/-- Claim-side notion: the maximal group size over all rows. -/
def maxGroupSize [DecidableEq κ] (rows : List (α × κ)) : Nat :=
  listMax (rows.map (fun r => groupSize rows r.2))

end Veritas

namespace Veritas

variable {α β γ κ : Type}

theorem listMax_cons (a : Nat) (l : List Nat) : listMax (a :: l) = max a (listMax l) := rfl

theorem le_listMax {a : Nat} : ∀ {l : List Nat}, a ∈ l → a ≤ listMax l := by
  intro l
  induction l with
  | nil => intro h; cases h
  | cons x xs ih =>
    intro h
    rw [listMax_cons]
    rcases List.mem_cons.mp h with rfl | h'
    · exact Nat.le_max_left _ _
    · exact le_trans (ih h') (Nat.le_max_right _ _)

theorem listMax_le {l : List Nat} {m : Nat} (h : ∀ a ∈ l, a ≤ m) : listMax l ≤ m := by
  induction l with
  | nil => exact Nat.zero_le m
  | cons x xs ih =>
    rw [listMax_cons]
    exact max_le (h x (List.mem_cons_self x xs)) (ih fun a ha => h a (List.mem_cons_of_mem _ ha))

theorem listMax_mem : ∀ {l : List Nat}, l ≠ [] → listMax l ∈ l := by
  intro l
  induction l with
  | nil => intro h; cases h rfl
  | cons x xs ih =>
    intro _
    rw [listMax_cons]
    rcases xs with _ | ⟨y, ys⟩
    · simp [listMax]
    · rcases Nat.le_total (listMax (y :: ys)) x with hle | hle
      · rw [Nat.max_eq_left hle]; exact List.mem_cons_self _ _
      · rw [Nat.max_eq_right hle]
        exact List.mem_cons_of_mem _ (ih (by simp))

theorem find?_filter_of_imp {p q : β → Bool} :
    ∀ (l : List β), (∀ x, p x = true → q x = true) →
      List.find? p (l.filter q) = List.find? p l := by
  intro l
  induction l with
  | nil => intro _; rfl
  | cons x xs ih =>
    intro h
    by_cases hq : q x = true
    · rw [List.filter_cons_of_pos hq]
      by_cases hp : p x = true
      · rw [List.find?_cons_of_pos _ hp, List.find?_cons_of_pos _ hp]
      · rw [List.find?_cons_of_neg _ (by simp [hp]), List.find?_cons_of_neg _ (by simp [hp])]
        exact ih h
    · have hp : ¬ p x = true := fun hp => hq (h x hp)
      rw [List.filter_cons_of_neg (by simp [hq]), List.find?_cons_of_neg _ (by simp [hp])]
      exact ih h

theorem find?_congr_on {p q : β → Bool} :
    ∀ (l : List β), (∀ x ∈ l, p x = q x) → l.find? p = l.find? q := by
  intro l
  induction l with
  | nil => intro _; rfl
  | cons x xs ih =>
    intro h
    have hx := h x (List.mem_cons_self x xs)
    by_cases hp : p x = true
    · rw [List.find?_cons_of_pos _ hp, List.find?_cons_of_pos _ (hx ▸ hp)]
    · rw [List.find?_cons_of_neg _ (by simp [hp]), List.find?_cons_of_neg _ (by simp [← hx, hp])]
      exact ih fun a ha => h a (List.mem_cons_of_mem _ ha)

end Veritas

namespace Veritas

variable {α β γ κ : Type}

theorem foldl_pyMax_eq_find? (f : β → Nat) :
    ∀ (bs : List β) (b : β),
      some (bs.foldl (fun best x => if f best < f x then x else best) b)
        = List.find? (fun y => f y == listMax ((b :: bs).map f)) (b :: bs) := by
  intro bs
  induction bs with
  | nil =>
    intro b
    rw [List.find?_cons_of_pos (p := fun y => f y == listMax (List.map f [b])) []
      (by simp [listMax])]
    rfl
  | cons x xs ih =>
    intro b
    have hstep : f (if f b < f x then x else b) = max (f b) (f x) := by
      by_cases hbx : f b < f x
      · rw [if_pos hbx, Nat.max_eq_right (Nat.le_of_lt hbx)]
      · rw [if_neg hbx, Nat.max_eq_left (Nat.le_of_not_lt hbx)]
    have hmaxeq : listMax (List.map f ((if f b < f x then x else b) :: xs))
        = listMax (List.map f (b :: x :: xs)) := by
      simp only [List.map_cons, listMax_cons, hstep]
      rw [← max_assoc]
    have hfb_le : f b ≤ listMax (List.map f (b :: x :: xs)) :=
      le_listMax (List.mem_map_of_mem f (List.mem_cons_self _ _))
    have hfx_le : f x ≤ listMax (List.map f (b :: x :: xs)) :=
      le_listMax (List.mem_map_of_mem f (List.mem_cons_of_mem _ (List.mem_cons_self _ _)))
    rw [List.foldl_cons, ih (if f b < f x then x else b), hmaxeq]
    by_cases hbx : f b < f x
    · rw [if_pos hbx]
      have hbn : ¬ (f b == listMax (List.map f (b :: x :: xs))) = true := by
        simp only [beq_iff_eq]
        exact Nat.ne_of_lt (Nat.lt_of_lt_of_le hbx hfx_le)
      rw [List.find?_cons_of_neg (p := fun y => f y == listMax (List.map f (b :: x :: xs)))
        (x :: xs) hbn]
    · rw [if_neg hbx]
      by_cases hb : f b = listMax (List.map f (b :: x :: xs))
      · have hbp : (f b == listMax (List.map f (b :: x :: xs))) = true := by
          simp only [beq_iff_eq]; exact hb
        rw [List.find?_cons_of_pos (p := fun y => f y == listMax (List.map f (b :: x :: xs)))
            (x :: xs) hbp,
          List.find?_cons_of_pos (p := fun y => f y == listMax (List.map f (b :: x :: xs)))
            xs hbp]
      · have hblt : f b < listMax (List.map f (b :: x :: xs)) := Nat.lt_of_le_of_ne hfb_le hb
        have hbn : ¬ (f b == listMax (List.map f (b :: x :: xs))) = true := by
          simp only [beq_iff_eq]; exact hb
        have hxn : ¬ (f x == listMax (List.map f (b :: x :: xs))) = true := by
          simp only [beq_iff_eq]
          exact Nat.ne_of_lt (Nat.lt_of_le_of_lt (Nat.le_of_not_lt hbx) hblt)
        rw [List.find?_cons_of_neg (p := fun y => f y == listMax (List.map f (b :: x :: xs)))
            (x :: xs) hbn,
          List.find?_cons_of_neg (p := fun y => f y == listMax (List.map f (b :: x :: xs)))
            xs hbn,
          List.find?_cons_of_neg (p := fun y => f y == listMax (List.map f (b :: x :: xs)))
            xs hxn]

theorem pyMaxBy_eq_find? {f : β → Nat} {l : List β} (h : l ≠ []) :
    pyMaxBy f l = List.find? (fun y => f y == listMax (l.map f)) l := by
  cases l with
  | nil => cases h rfl
  | cons b bs => exact foldl_pyMax_eq_find? f bs b

theorem mem_firstKeys {v : String} : ∀ {l : List String}, v ∈ firstKeys l ↔ v ∈ l := by
  intro l
  induction l with
  | nil => simp [firstKeys]
  | cons x xs ih =>
    by_cases hvx : v = x
    · subst hvx
      simp [firstKeys]
    · simp only [firstKeys, List.mem_cons, List.mem_filter, ih]
      constructor
      · rintro (rfl | ⟨h, _⟩)
        · exact Or.inl rfl
        · exact Or.inr h
      · rintro (rfl | h)
        · exact Or.inl rfl
        · exact Or.inr ⟨h, by simp [hvx]⟩

theorem find?_firstKeys (p : String → Bool) :
    ∀ (l : List String), List.find? p (firstKeys l) = List.find? p l := by
  intro l
  induction l with
  | nil => rfl
  | cons x xs ih =>
    show List.find? p (x :: (firstKeys xs).filter (fun y => !(y == x))) = _
    by_cases hp : p x = true
    · rw [List.find?_cons_of_pos _ hp, List.find?_cons_of_pos _ hp]
    · rw [List.find?_cons_of_neg _ (by simp [hp]), List.find?_cons_of_neg _ (by simp [hp])]
      rw [find?_filter_of_imp (firstKeys xs)
        (fun y hy => by simp; intro he; rw [he] at hy; exact hp hy)]
      exact ih

theorem maxVoteCount_firstKeys (outs : List String) :
    listMax ((firstKeys outs).map (countOcc outs)) = maxVoteCount outs := by
  apply Nat.le_antisymm
  · apply listMax_le
    intro a ha
    obtain ⟨k, hk, rfl⟩ := List.mem_map.mp ha
    exact le_listMax (List.mem_map_of_mem _ (mem_firstKeys.mp hk))
  · apply listMax_le
    intro a ha
    obtain ⟨k, hk, rfl⟩ := List.mem_map.mp ha
    exact le_listMax (List.mem_map_of_mem _ (mem_firstKeys.mpr hk))

theorem mostCommon1_eq (outs : List String) (h : outs ≠ []) :
    mostCommon1 outs
      = (outs.find? (fun v => countOcc outs v == maxVoteCount outs)).map
          (fun v => (v, maxVoteCount outs)) := by
  have hkeys : firstKeys outs ≠ [] := by
    cases outs with
    | nil => cases h rfl
    | cons o os => simp [firstKeys]
  have hitems : (firstKeys outs).map (fun k => (k, countOcc outs k)) ≠ [] := by
    simpa using hkeys
  unfold mostCommon1
  rw [pyMaxBy_eq_find? hitems]
  rw [List.find?_map]
  have hM : listMax ((((firstKeys outs).map (fun k => (k, countOcc outs k))).map
      (fun p : String × Nat => p.2))) = maxVoteCount outs := by
    rw [List.map_map]
    exact maxVoteCount_firstKeys outs
  simp only [hM]
  have hpred : ((fun y : String × Nat => y.2 == maxVoteCount outs) ∘
      (fun k => (k, countOcc outs k))) = fun k => countOcc outs k == maxVoteCount outs := rfl
  rw [hpred, find?_firstKeys]
  cases hfind : outs.find? (fun v => countOcc outs v == maxVoteCount outs) with
  | none => rfl
  | some v =>
    have hv := List.find?_some hfind
    have hveq : countOcc outs v = maxVoteCount outs := by simpa using hv
    simp [hveq]

end Veritas

namespace Veritas

variable {α β γ κ : Type}

theorem mostCommon1_nil : mostCommon1 [] = none := rfl

theorem mem_buildOracle {results : List (List (Bool × String))} {n minAgree idx : Nat} {v : String} :
    (idx, v) ∈ buildOracle results n minAgree
      ↔ idx < n ∧ minAgree ≤ maxVoteCount (votesFor results idx)
          ∧ (votesFor results idx).find?
              (fun x => countOcc (votesFor results idx) x == maxVoteCount (votesFor results idx))
            = some v := by
  unfold buildOracle
  rw [List.mem_filterMap]
  constructor
  · rintro ⟨a, ha, hfa⟩
    have han : a < n := List.mem_range.mp ha
    cases hmc : mostCommon1 (votesFor results a) with
    | none => rw [hmc] at hfa; cases hfa
    | some vc =>
      rw [hmc] at hfa
      have hfa2 : (if minAgree ≤ vc.2 then some (a, vc.1) else none) = some (idx, v) := hfa
      by_cases hle : minAgree ≤ vc.2
      · rw [if_pos hle] at hfa2
        have hpair : (a, vc.1) = (idx, v) := (Option.some.injEq _ _).mp hfa2
        have hai : a = idx := ((Prod.mk.injEq _ _ _ _).mp hpair).1
        subst hai
        have hv : vc.1 = v := ((Prod.mk.injEq _ _ _ _).mp hpair).2
        have hne : votesFor results a ≠ [] := by
          intro h0
          rw [h0, mostCommon1_nil] at hmc
          cases hmc
        rw [mostCommon1_eq _ hne] at hmc
        cases hfind : (votesFor results a).find?
            (fun x => countOcc (votesFor results a) x == maxVoteCount (votesFor results a)) with
        | none => rw [hfind] at hmc; cases hmc
        | some w =>
          rw [hfind] at hmc
          have hw : vc = (w, maxVoteCount (votesFor results a)) := by
            have := (Option.some.injEq _ _).mp hmc
            exact this.symm
          refine ⟨han, ?_, ?_⟩
          · rw [hw] at hle; exact hle
          · rw [← hv, hw]
      · rw [if_neg hle] at hfa2; cases hfa2
  · rintro ⟨hidx, hM, hfind⟩
    refine ⟨idx, List.mem_range.mpr hidx, ?_⟩
    have hvmem : v ∈ votesFor results idx := List.mem_of_find?_eq_some hfind
    have hne : votesFor results idx ≠ [] := fun h0 => by rw [h0] at hvmem; cases hvmem
    rw [mostCommon1_eq _ hne, hfind]
    show (if minAgree ≤ maxVoteCount (votesFor results idx) then _ else none) = _
    rw [if_pos hM]

/-- Claim C1: the oracle built by `build_stress_predicted_tests` /
`build_stress_predicted_subset` contains an entry for input index `idx` iff
the maximal occurrence count among the successful outputs collected for `idx`
reaches `minAgree`.  Failed executions contribute no votes (they are filtered
out of `votesFor`), and an index on which every stress candidate fails has an
empty vote list, hence `maxVoteCount = 0 < minAgree` and no entry. -/
theorem build_oracle_contains_iff (results : List (List (Bool × String))) (n minAgree idx : Nat)
    (hlen : ∀ r ∈ results, r.length = n) (hmin : 1 ≤ minAgree) :
    (∃ v, (idx, v) ∈ buildOracle results n minAgree)
      ↔ minAgree ≤ maxVoteCount (votesFor results idx) := by
  constructor
  · rintro ⟨v, hv⟩
    exact (mem_buildOracle.mp hv).2.1
  · intro hM
    have hne : votesFor results idx ≠ [] := by
      intro h0
      rw [h0] at hM
      have hz : maxVoteCount [] = 0 := rfl
      omega
    have hmapne : (votesFor results idx).map (countOcc (votesFor results idx)) ≠ [] := by
      simpa using hne
    have hach := listMax_mem hmapne
    obtain ⟨x, hx, hcx⟩ := List.mem_map.mp hach
    have hsome : ((votesFor results idx).find?
        (fun y => countOcc (votesFor results idx) y == maxVoteCount (votesFor results idx))).isSome :=
      List.find?_isSome.mpr ⟨x, hx, by simp [hcx, maxVoteCount]⟩
    obtain ⟨v, hv⟩ := Option.isSome_iff_exists.mp hsome
    have hidx : idx < n := by
      obtain ⟨w, hw⟩ := List.exists_mem_of_ne_nil _ hne
      obtain ⟨r, hr, hfr⟩ := List.mem_filterMap.mp hw
      by_contra hge
      have hnone : r.get? idx = none := List.get?_eq_none.mpr (by rw [hlen r hr]; omega)
      rw [hnone] at hfr
      cases hfr
    exact ⟨v, mem_buildOracle.mpr ⟨hidx, hM, hv⟩⟩

/-- Witness for C1 at a concrete input: three stress candidates answering
"4", "4", "5" on one input with `minAgree = 2` produce an oracle entry for
index 0. -/
theorem build_oracle_contains_iff_witness :
    ∃ v, (0, v) ∈ buildOracle [[(true, "4")], [(true, "4")], [(true, "5")]] 1 2 :=
  (build_oracle_contains_iff [[(true, "4")], [(true, "4")], [(true, "5")]] 1 2 0
    (by decide) (by decide)).mpr (by decide)

/-- Claim C2 counterexample: the per-index vote list is appended to by the
concurrently running stress executions in completion order, which asyncio
does not fix to generation order.  For the stress outputs "5","4","4","5" (in
generation order) a completion schedule in which candidates 1 and 2 finish
first yields oracle value "4" for index 0, while generation order yields "5":
the tie-break is schedule-dependent, not determined by generation order. -/
theorem tie_break_not_generation_order :
    List.Perm [1, 2, 0, 3] [0, 1, 2, 3]
      ∧ buildOracleSched [[(true, "5")], [(true, "4")], [(true, "4")], [(true, "5")]]
            [1, 2, 0, 3] 1 2
          ≠ buildOracleSched [[(true, "5")], [(true, "4")], [(true, "4")], [(true, "5")]]
            [0, 1, 2, 3] 1 2 := by
  constructor
  · decide
  · decide

/-- Claim C2 (amended): for every completion schedule, the oracle maps an
index to the value that occurred first in the vote list as aggregated in that
schedule order among the values of maximal count (and an entry exists iff
that maximal count reaches `minAgree`).  The pick agrees with generation
order exactly when the schedule preserves it; it is first-occurrence in
aggregation (completion) order in general. -/
theorem build_oracle_sched_pick (results : List (List (Bool × String))) (sched : List Nat)
    (n minAgree idx : Nat) (v : String) :
    (idx, v) ∈ buildOracleSched results sched n minAgree
      ↔ idx < n ∧ minAgree ≤ maxVoteCount (schedVotes results sched idx)
          ∧ (schedVotes results sched idx).find?
              (fun x => countOcc (schedVotes results sched idx) x
                  == maxVoteCount (schedVotes results sched idx))
            = some v :=
  mem_buildOracle

end Veritas

namespace Veritas

variable {α β γ κ : Type}

theorem selfDebugTrace_result_passes (ex : γ → String → Bool × String) (gen : Nat → γ)
    (samples : List (String × String)) :
    ∀ (fuel : Nat) (cur : γ) (attempt : Nat) (r : γ),
      (selfDebugTrace ex gen samples fuel cur attempt).1 = some r →
      allSamplesOk ex r samples = true := by
  intro fuel
  induction fuel with
  | zero =>
    intro cur attempt r h
    simp [selfDebugTrace] at h
  | succ f ih =>
    intro cur attempt r h
    by_cases hok : allSamplesOk ex cur samples = true
    · rw [selfDebugTrace, if_pos hok] at h
      have : cur = r := (Option.some.injEq _ _).mp h
      rw [← this]
      exact hok
    · rw [selfDebugTrace, if_neg hok] at h
      exact ih _ _ _ h

/-- Claim C4 counterexample: with the sample expected output " 5" (leading
space) and a candidate whose execution output is "5", the code's
`str.strip()` comparison accepts the candidate, so `self_debug` returns it;
but under exact match after trimming only trailing whitespace (the claim's
criterion, `passesRStrip`) the candidate does not pass that sample test. -/
theorem sample_match_also_strips_leading :
    (self_debug (fun (_ : Unit) (_ : String) => (true, "5")) (fun _ => ()) [("in", " 5")] () 0).1
        = some ()
      ∧ passesRStrip (fun (_ : Unit) (_ : String) => (true, "5")) () [("in", " 5")] = false := by
  constructor
  · decide
  · decide

/-- Claim C4 (amended): every candidate returned (non-`None`) by `self_debug`,
and every candidate kept by `verify_sample_tests`, passes all sample tests
under exact string match after stripping leading and trailing whitespace from
both the output and the expected output (Python `str.strip()`), execution
having succeeded on each sample. -/
theorem sample_pass_invariant (ex : γ → String → Bool × String) (gen : Nat → γ)
    (samples : List (String × String)) (c : γ) (maxAttempts : Nat) (cands : List γ) :
    (∀ r, (self_debug ex gen samples c maxAttempts).1 = some r →
        allSamplesOk ex r samples = true)
      ∧ ∀ x ∈ verifySampleTests ex cands samples, allSamplesOk ex x samples = true := by
  constructor
  · intro r h
    exact selfDebugTrace_result_passes ex gen samples _ _ _ r h
  · intro x hx
    exact (List.mem_filter.mp hx).2

/-- Witness for C4 (amended): a concrete surviving candidate indeed satisfies
the stripped sample check. -/
theorem sample_pass_invariant_witness :
    allSamplesOk (fun (_ : Unit) (_ : String) => (true, "5")) () [("in", "5")] = true := by
  have h := sample_pass_invariant (fun (_ : Unit) (_ : String) => (true, "5"))
    (fun _ => ()) [("in", "5")] () 0 []
  exact h.1 () (by decide)

theorem selfDebugTrace_all_fail (ex : γ → String → Bool × String) (gen : Nat → γ)
    (samples : List (String × String)) (h : ∀ x, allSamplesOk ex x samples = false) :
    ∀ (f a : Nat) (cur : γ),
      selfDebugTrace ex gen samples (f + 1) cur a
        = (none, cur :: (List.range f).map (fun i => gen (a + 1 + i)), f + 1) := by
  intro f
  induction f with
  | zero =>
    intro a cur
    rw [selfDebugTrace, if_neg (by rw [h cur]; exact Bool.false_ne_true)]
    rfl
  | succ f ih =>
    intro a cur
    rw [selfDebugTrace, if_neg (by rw [h cur]; exact Bool.false_ne_true)]
    rw [ih (a + 1) (gen (a + 1))]
    have hrange : (List.range (f + 1)).map (fun i => gen (a + 1 + i))
        = gen (a + 1) :: (List.range f).map (fun i => gen (a + 1 + 1 + i)) := by
      rw [List.range_succ_eq_map, List.map_cons, List.map_map]
      have : a + 1 + 0 = a + 1 := rfl
      rw [this]
      have hfun : ((fun i => gen (a + 1 + i)) ∘ Nat.succ) = fun i => gen (a + 1 + 1 + i) := by
        funext i
        have : a + 1 + Nat.succ i = a + 1 + 1 + i := by omega
        simp [Function.comp, this]
      rw [hfun]
    rw [hrange]

/-- Claim C5: with `max_debug_attempts = 2` and a generator whose candidates
always fail the sample tests, `self_debug` returns `None` after testing
exactly 3 candidates: the initial one and the 2 revisions `gen 1`, `gen 2`
(the trace also records that the generator was called 3 times). -/
theorem self_debug_budget_two (ex : γ → String → Bool × String) (gen : Nat → γ)
    (samples : List (String × String)) (c : γ)
    (h : ∀ x, allSamplesOk ex x samples = false) :
    self_debug ex gen samples c 2 = (none, [c, gen 1, gen 2], 3) := by
  unfold self_debug
  rw [selfDebugTrace_all_fail ex gen samples h 2 0 c]
  rfl

/-- Witness for C5 at a concrete always-failing generator and executor. -/
theorem self_debug_budget_two_witness :
    self_debug (fun (_ : Nat) (_ : String) => (false, "")) (fun n => n) [("x", "y")] 99 2
      = (none, [99, 1, 2], 3) := by
  have h := self_debug_budget_two (fun (_ : Nat) (_ : String) => (false, ""))
    (fun n => n) [("x", "y")] 99 (fun x => rfl)
  exact h

/-- Claim C10: when every tested candidate fails some sample test,
`self_debug` with budget `m` tests exactly `m + 1` candidates (the initial one
and the revisions `gen 1 … gen m`), invokes the generator exactly `m + 1`
times, and returns `None`; the `(m+1)`-th generated candidate `gen (m+1)` is
produced by the final generator call after the last failing test but is
absent from the tested list, i.e. it is never tested. -/
theorem self_debug_exhaustion (ex : γ → String → Bool × String) (gen : Nat → γ)
    (samples : List (String × String)) (c : γ) (m : Nat)
    (h : ∀ x, allSamplesOk ex x samples = false) :
    self_debug ex gen samples c m
      = (none, c :: (List.range m).map (fun i => gen (1 + i)), m + 1) := by
  unfold self_debug
  rw [selfDebugTrace_all_fail ex gen samples h m 0 c]

/-- Witness for C10 with budget 1: two candidates tested, two generator
calls, result `None`. -/
theorem self_debug_exhaustion_witness :
    self_debug (fun (_ : Nat) (_ : String) => (false, "no")) (fun n => n + 10) [("a", "b")] 7 1
      = (none, [7, 11], 2) := by
  have h := self_debug_exhaustion (fun (_ : Nat) (_ : String) => (false, "no"))
    (fun n => n + 10) [("a", "b")] 7 1 (fun x => rfl)
  exact h

/-- Claim C6 counterexample: `CodeExecutor.run` in async_stress_test.py only
catches `asyncio.TimeoutError`; a launch-time error (e.g. missing
interpreter) is not converted into a classified failure outcome but
propagates as an exception, modelled by `Except.error`. -/
theorem async_run_propagates_launch_error :
    asyncRun (ProcEvent.launchFailure "FileNotFoundError") = Except.error "FileNotFoundError" :=
  rfl

/-- Claim C6 (amended): `run_file` (executor.py) returns a classified outcome
for every event and never propagates an exception — exit code zero gives
success with trimmed stdout, a non-zero exit gives a failure carrying trimmed
stderr behind the "ERROR: " marker (the bare generic marker when stderr is
empty), a timeout gives the "TIMEOUT" failure after the process is killed,
and a launch-time error gives the "EXCEPTION: " failure; success occurs
exactly on exit code zero.  `CodeExecutor.run` (async_stress_test.py)
classifies completions (trimmed stderr or the "__ERROR__" marker when empty)
and timeouts the same way but propagates launch-time errors instead of
returning a failure. -/
theorem run_outcome_classification :
    (∀ (ec : Int) (out err : String), runFile (ProcEvent.completed ec out err)
        = if ec = 0 then (true, pyStrip out) else (false, "ERROR: " ++ pyStrip err))
      ∧ runFile ProcEvent.timedOut = (false, "TIMEOUT")
      ∧ (∀ msg, runFile (ProcEvent.launchFailure msg) = (false, "EXCEPTION: " ++ msg))
      ∧ (∀ ev, (runFile ev).1 = true ↔ ∃ out err, ev = ProcEvent.completed 0 out err)
      ∧ (∀ (ec : Int) (out err : String), asyncRun (ProcEvent.completed ec out err)
          = Except.ok (if ec = 0 then (true, pyStrip out)
              else (false, if pyStrip err = "" then "__ERROR__" else pyStrip err)))
      ∧ asyncRun ProcEvent.timedOut = Except.ok (false, "__TIMEOUT__")
      ∧ (∀ msg, asyncRun (ProcEvent.launchFailure msg) = Except.error msg) := by
  refine ⟨?_, rfl, fun _ => rfl, ?_, ?_, rfl, fun _ => rfl⟩
  · intro ec out err
    by_cases hec : ec = 0
    · rw [if_pos hec]
      simp only [runFile]
      rw [if_neg (by simp [hec])]
    · rw [if_neg hec]
      simp only [runFile]
      rw [if_pos hec]
  · intro ev
    cases ev with
    | completed ec out err =>
      by_cases hec : ec = 0
      · subst hec
        have hr : runFile (ProcEvent.completed 0 out err) = (true, pyStrip out) := by
          simp only [runFile]
          rw [if_neg (by simp)]
        rw [hr]
        simp
      · have hr : runFile (ProcEvent.completed ec out err)
            = (false, "ERROR: " ++ pyStrip err) := by
          simp only [runFile]
          rw [if_pos hec]
        rw [hr]
        simp [hec]
    | timedOut => simp [runFile]
    | launchFailure msg => simp [runFile]
  · intro ec out err
    by_cases hec : ec = 0
    · rw [if_pos hec]
      simp only [asyncRun]
      rw [if_neg (by simp [hec])]
    · rw [if_neg hec]
      simp only [asyncRun]
      rw [if_pos hec]

/-- Claim C8: when the stress-predicted oracle is empty, both filters return
the candidate list unchanged. -/
theorem filter_empty_oracle_id (ex : γ → String → Bool × String) (cands : List γ)
    (inputs : List String) :
    filterByStressTests ex cands [] inputs = cands
      ∧ filterCandidatesByTests ex cands [] inputs = cands :=
  ⟨rfl, rfl⟩

/-- Claim C9 counterexample: the error sentinel is an ordinary string a
program can legitimately print.  An execution that succeeds with output
exactly "__ERR__" (realizable by a candidate running `print("__ERR__")`)
makes the vector entry equal the sentinel even though the execution
succeeded, so sentinel entries do not hold exactly when the execution
failed. -/
theorem sentinel_collision :
    ((fun (_ : Unit) (_ : String) => (true, "__ERR__")) () "x").1 = true
      ∧ outputVectorWith "__ERR__" (fun (_ : Unit) (_ : String) => (true, "__ERR__")) () ["x"]
          = ["__ERR__"] :=
  ⟨rfl, rfl⟩

/-- Claim C9 (amended): a failed execution always yields the sentinel entry in
the output vector (for either sentinel, "__ERR__" of async_stress_test.py or
"__ERROR__" of executor.py), but the converse does not hold: a successful
execution may also output the sentinel string, so the sentinel is not
distinguishable from every legitimate program output. -/
theorem sentinel_marks_failures (sentinel : String) (ex : γ → String → Bool × String) (c : γ)
    (inputs : List String) (i : Nat) (inp : String)
    (hget : inputs[i]? = some inp) (hfail : (ex c inp).1 = false) :
    (outputVectorWith sentinel ex c inputs)[i]? = some sentinel := by
  unfold outputVectorWith
  rw [List.getElem?_map, hget]
  simp [hfail]

/-- Witness for C9 (amended) at a concrete failing execution. -/
theorem sentinel_marks_failures_witness :
    (outputVectorWith "__ERR__" (fun (_ : Unit) (_ : String) => (false, "boom")) () ["x"])[0]?
      = some "__ERR__" :=
  sentinel_marks_failures "__ERR__" (fun (_ : Unit) (_ : String) => (false, "boom")) () ["x"]
    0 "x" rfl rfl

end Veritas

namespace Veritas

variable {α β γ κ : Type}

theorem mem_filterByStressTests {ex : γ → String → Bool × String} {cands : List γ}
    {oracle : List (Nat × String)} {inputs : List String} {c : γ} (hne : oracle ≠ []) :
    c ∈ filterByStressTests ex cands oracle inputs
      ↔ c ∈ cands ∧ ∀ p ∈ oracle, (ex c (inputs.getD p.1 "")).1 = true
          ∧ pyStrip (ex c (inputs.getD p.1 "")).2 = pyStrip p.2 := by
  have hemp : oracle.isEmpty = false := by
    cases oracle with
    | nil => cases hne rfl
    | cons p ps => rfl
  unfold filterByStressTests
  rw [hemp]
  simp only [Bool.false_eq_true, if_false, List.mem_filter, List.all_eq_true,
    Bool.and_eq_true, beq_iff_eq]

theorem mem_filterCandidatesByTests {ex : γ → String → Bool × String} {cands : List γ}
    {tests : List (Nat × String)} {inputs : List String} {c : γ} (hne : tests ≠ []) :
    c ∈ filterCandidatesByTests ex cands tests inputs
      ↔ c ∈ cands ∧ ∀ p ∈ tests, (ex c (inputs.getD p.1 "")).1 = true
          ∧ (ex c (inputs.getD p.1 "")).2 = p.2 := by
  have hemp : tests.isEmpty = false := by
    cases tests with
    | nil => cases hne rfl
    | cons p ps => rfl
  unfold filterCandidatesByTests
  rw [hemp]
  simp only [Bool.false_eq_true, if_false, List.mem_filter, List.all_eq_true,
    Bool.and_eq_true, beq_iff_eq]

/-- Claim C7: with a non-empty oracle, a candidate survives filtering iff
every execution on an oracle-covered input succeeds and its output matches
the oracle's prediction for that index after stripping.  The first conjunct
is `filter_by_stress_tests` (executor.py), which strips both sides; the
second is `filter_candidates_by_tests` (async_stress_test.py), which compares
raw strings, and coincides with the stripped comparison under the pipeline
invariant that executor outputs and oracle values are already stripped
(`CodeExecutor.run` strips stdout, and oracle values are such outputs). -/
theorem filter_oracle_survival (ex : γ → String → Bool × String) (cands : List γ)
    (oracle : List (Nat × String)) (inputs : List String) (c : γ)
    (hne : oracle ≠ [])
    (hout : ∀ c' inp, pyStrip (ex c' inp).2 = (ex c' inp).2)
    (hvals : ∀ p ∈ oracle, pyStrip p.2 = p.2) :
    (c ∈ filterByStressTests ex cands oracle inputs
        ↔ c ∈ cands ∧ ∀ p ∈ oracle, (ex c (inputs.getD p.1 "")).1 = true
            ∧ pyStrip (ex c (inputs.getD p.1 "")).2 = pyStrip p.2)
      ∧ (c ∈ filterCandidatesByTests ex cands oracle inputs
        ↔ c ∈ cands ∧ ∀ p ∈ oracle, (ex c (inputs.getD p.1 "")).1 = true
            ∧ pyStrip (ex c (inputs.getD p.1 "")).2 = pyStrip p.2) := by
  constructor
  · exact mem_filterByStressTests hne
  · apply Iff.trans (mem_filterCandidatesByTests hne)
    apply and_congr_right
    intro _
    constructor
    · rintro hfor p hp
      obtain ⟨h1, h2⟩ := hfor p hp
      exact ⟨h1, by rw [h2]⟩
    · rintro hfor p hp
      obtain ⟨h1, h2⟩ := hfor p hp
      refine ⟨h1, ?_⟩
      calc (ex c (inputs.getD p.1 "")).2
          = pyStrip (ex c (inputs.getD p.1 "")).2 := (hout c _).symm
        _ = pyStrip p.2 := h2
        _ = p.2 := hvals p hp

/-- Witness for C7: a matching candidate survives and a mismatching one is
characterised by the same equivalence. -/
theorem filter_oracle_survival_witness :
    0 ∈ filterByStressTests
        (fun (c' : Nat) (_ : String) => (true, if c' = 0 then "7" else "8"))
        [0, 1] [(0, "7")] ["i"] := by
  have h := filter_oracle_survival
    (fun (c' : Nat) (_ : String) => (true, if c' = 0 then "7" else "8"))
    [0, 1] [(0, "7")] ["i"] 0 (by decide)
    (fun c' inp => by by_cases h0 : c' = 0 <;> simp [h0] <;> decide)
    (by decide)
  exact h.1.mpr (by decide)

theorem addRow_cons_of_ne [DecidableEq κ] (acc : List (κ × List α)) (k : κ) (ms : List α)
    (r : α × κ) (h : r.2 ≠ k) :
    addRow ((k, ms) :: acc) r = (k, ms) :: addRow acc r := by
  unfold addRow
  have hk : (decide ((k, ms).1 = r.2)) = false := by
    simp only [decide_eq_false_iff_not]
    exact fun he => h he.symm
  simp only [List.any_cons, hk, Bool.false_or]
  by_cases hacc : acc.any (fun e => decide (e.1 = r.2)) = true
  · rw [if_pos hacc, if_pos hacc, List.map_cons]
    congr 1
    rw [if_neg (fun he : (k, ms).1 = r.2 => h he.symm)]
  · rw [if_neg hacc, if_neg hacc, List.cons_append]

theorem addRow_cons_of_eq [DecidableEq κ] (acc : List (κ × List α)) (k : κ) (ms : List α)
    (r : α × κ) (h : r.2 = k) (hacc : ∀ e ∈ acc, e.1 ≠ k) :
    addRow ((k, ms) :: acc) r = (k, ms ++ [r.1]) :: acc := by
  unfold addRow
  have hk : (decide ((k, ms).1 = r.2)) = true := by simp [h]
  simp only [List.any_cons, hk, Bool.true_or, if_pos, List.map_cons]
  congr 1
  · rw [if_pos (show k = r.2 from h.symm)]
  · have hid : ∀ e ∈ acc, (if e.1 = r.2 then (e.1, e.2 ++ [r.1]) else e) = e :=
      fun e he => if_neg (fun hh => hacc e he (h ▸ hh))
    calc List.map (fun e => if e.1 = r.2 then (e.1, e.2 ++ [r.1]) else e) acc
        = List.map id acc := List.map_congr_left hid
      _ = acc := List.map_id acc

theorem addRow_keys_ne [DecidableEq κ] (acc : List (κ × List α)) (r : α × κ) (k : κ)
    (hacc : ∀ e ∈ acc, e.1 ≠ k) (hr : r.2 ≠ k) :
    ∀ e ∈ addRow acc r, e.1 ≠ k := by
  intro e he
  unfold addRow at he
  by_cases hany : acc.any (fun e => decide (e.1 = r.2)) = true
  · rw [if_pos hany] at he
    obtain ⟨e', he', hee⟩ := List.mem_map.mp he
    by_cases h2 : e'.1 = r.2
    · rw [if_pos h2] at hee
      rw [← hee]
      exact hacc e' he'
    · rw [if_neg h2] at hee
      rw [← hee]
      exact hacc e' he'
  · rw [if_neg hany] at he
    rcases List.mem_append.mp he with h1 | h2
    · exact hacc e h1
    · have he2 : e = (r.2, [r.1]) := by simpa using h2
      rw [he2]
      exact hr

theorem foldl_addRow_cons [DecidableEq κ] :
    ∀ (rest : List (α × κ)) (acc : List (κ × List α)) (k : κ) (ms : List α),
      (∀ e ∈ acc, e.1 ≠ k) →
      List.foldl addRow ((k, ms) :: acc) rest
        = (k, ms ++ (rest.filter (fun r => decide (r.2 = k))).map Prod.fst)
            :: List.foldl addRow acc (rest.filter (fun r => !decide (r.2 = k))) := by
  intro rest
  induction rest with
  | nil =>
    intro acc k ms hacc
    simp
  | cons r rs ih =>
    intro acc k ms hacc
    by_cases hr : r.2 = k
    · rw [List.foldl_cons, addRow_cons_of_eq acc k ms r hr hacc, ih acc k (ms ++ [r.1]) hacc]
      have hf1 : (r :: rs).filter (fun x => decide (x.2 = k))
          = r :: rs.filter (fun x => decide (x.2 = k)) := List.filter_cons_of_pos (by simp [hr])
      have hf2 : (r :: rs).filter (fun x => !decide (x.2 = k))
          = rs.filter (fun x => !decide (x.2 = k)) := List.filter_cons_of_neg (by simp [hr])
      rw [hf1, hf2, List.map_cons, List.append_assoc, List.singleton_append]
    · rw [List.foldl_cons, addRow_cons_of_ne acc k ms r hr,
        ih (addRow acc r) k ms (addRow_keys_ne acc r k hacc hr)]
      have hf1 : (r :: rs).filter (fun x => decide (x.2 = k))
          = rs.filter (fun x => decide (x.2 = k)) := List.filter_cons_of_neg (by simp [hr])
      have hf2 : (r :: rs).filter (fun x => !decide (x.2 = k))
          = r :: rs.filter (fun x => !decide (x.2 = k)) := List.filter_cons_of_pos (by simp [hr])
      rw [hf1, hf2, List.foldl_cons]

theorem clustersFold_cons [DecidableEq κ] (a : α) (k : κ) (rest : List (α × κ)) :
    clustersFold ((a, k) :: rest)
      = (k, a :: (rest.filter (fun r => decide (r.2 = k))).map Prod.fst)
          :: clustersFold (rest.filter (fun r => !decide (r.2 = k))) := by
  unfold clustersFold
  rw [List.foldl_cons]
  have h0 : addRow ([] : List (κ × List α)) (a, k) = [(k, [a])] := rfl
  rw [h0, foldl_addRow_cons rest [] k [a] (fun e he => absurd he (List.not_mem_nil e))]
  rfl

end Veritas

namespace Veritas

variable {α β γ κ : Type}

theorem clustersFold_mem_spec [DecidableEq κ] :
    ∀ (n : Nat) (rows : List (α × κ)), rows.length ≤ n →
      ∀ e ∈ clustersFold rows,
        e.2 = (rows.filter (fun r => decide (r.2 = e.1))).map Prod.fst
          ∧ ∃ r ∈ rows, r.2 = e.1 := by
  intro n
  induction n with
  | zero =>
    intro rows hlen e he
    have h0 : rows = [] := List.length_eq_zero.mp (Nat.le_zero.mp hlen)
    subst h0
    cases he
  | succ n ih =>
    intro rows hlen e he
    cases rows with
    | nil => cases he
    | cons r0 rest =>
      obtain ⟨a, k⟩ := r0
      rw [clustersFold_cons] at he
      rcases List.mem_cons.mp he with he0 | heT
      · subst he0
        constructor
        · have hf : ((a, k) :: rest).filter (fun r => decide (r.2 = k))
              = (a, k) :: rest.filter (fun r => decide (r.2 = k)) :=
            List.filter_cons_of_pos (by simp)
          show a :: (rest.filter (fun r => decide (r.2 = k))).map Prod.fst
              = (((a, k) :: rest).filter (fun r => decide (r.2 = k))).map Prod.fst
          rw [hf, List.map_cons]
        · exact ⟨(a, k), List.mem_cons_self _ _, rfl⟩
      · have hlen' : (rest.filter (fun x => !decide (x.2 = k))).length ≤ n := by
          have h1 := List.length_filter_le (fun x => !decide (x.2 = k)) rest
          have h2 : rest.length + 1 ≤ n + 1 := by simpa using hlen
          omega
        obtain ⟨hspec, r, hrmem, hrk⟩ := ih _ hlen' e heT
        have hrk2 : r.2 ≠ k := by
          have hmf := (List.mem_filter.mp hrmem).2
          simpa using hmf
        have hek : e.1 ≠ k := by rw [← hrk]; exact hrk2
        constructor
        · rw [hspec, List.filter_filter]
          have hhead : ((a, k) :: rest).filter (fun x => decide (x.2 = e.1))
              = rest.filter (fun x => decide (x.2 = e.1)) :=
            List.filter_cons_of_neg (by simp; exact fun hh => hek hh.symm)
          rw [hhead]
          congr 1
          apply List.filter_congr
          intro x hx
          by_cases hxe : x.2 = e.1
          · have hxk : x.2 ≠ k := by rw [hxe]; exact hek
            simp [hxe, hxk, hek]
          · simp [hxe]
        · exact ⟨r, List.mem_cons_of_mem _ (List.mem_of_mem_filter hrmem), hrk⟩

theorem clustersFold_keys_complete [DecidableEq κ] :
    ∀ (n : Nat) (rows : List (α × κ)), rows.length ≤ n →
      ∀ r ∈ rows, ∃ e ∈ clustersFold rows, e.1 = r.2 := by
  intro n
  induction n with
  | zero =>
    intro rows hlen r hr
    have h0 : rows = [] := List.length_eq_zero.mp (Nat.le_zero.mp hlen)
    subst h0
    cases hr
  | succ n ih =>
    intro rows hlen r hr
    cases rows with
    | nil => cases hr
    | cons r0 rest =>
      obtain ⟨a, k⟩ := r0
      rw [clustersFold_cons]
      by_cases hrk : r.2 = k
      · exact ⟨(k, a :: (rest.filter (fun x => decide (x.2 = k))).map Prod.fst),
          List.mem_cons_self _ _, hrk.symm⟩
      · rcases List.mem_cons.mp hr with he0 | hmem
        · rw [he0] at hrk
          cases hrk rfl
        · have hmem' : r ∈ rest.filter (fun x => !decide (x.2 = k)) :=
            List.mem_filter.mpr ⟨hmem, by simp [hrk]⟩
          have hlen' : (rest.filter (fun x => !decide (x.2 = k))).length ≤ n := by
            have h1 := List.length_filter_le (fun x => !decide (x.2 = k)) rest
            have h2 : rest.length + 1 ≤ n + 1 := by simpa using hlen
            omega
          obtain ⟨e, he, hek⟩ := ih _ hlen' r hmem'
          exact ⟨e, List.mem_cons_of_mem _ he, hek⟩

theorem clustersFold_find?_head [DecidableEq κ] :
    ∀ (n : Nat) (rows : List (α × κ)) (P : κ → Bool), rows.length ≤ n →
      ((clustersFold rows).find? (fun e => P e.1)).bind (fun e => e.2.head?)
        = ((rows.find? (fun r => P r.2)).map Prod.fst) := by
  intro n
  induction n with
  | zero =>
    intro rows P hlen
    have h0 : rows = [] := List.length_eq_zero.mp (Nat.le_zero.mp hlen)
    subst h0
    rfl
  | succ n ih =>
    intro rows P hlen
    cases rows with
    | nil => rfl
    | cons r0 rest =>
      obtain ⟨a, k⟩ := r0
      rw [clustersFold_cons]
      by_cases hPk : P k = true
      · rw [List.find?_cons_of_pos (p := fun e : κ × List α => P e.1) _ hPk,
          List.find?_cons_of_pos (p := fun r : α × κ => P r.2) rest hPk]
        rfl
      · rw [List.find?_cons_of_neg (p := fun e : κ × List α => P e.1) _ (by simpa using hPk),
          List.find?_cons_of_neg (p := fun r : α × κ => P r.2) rest (by simpa using hPk)]
        have hlen' : (rest.filter (fun x => !decide (x.2 = k))).length ≤ n := by
          have h1 := List.length_filter_le (fun x => !decide (x.2 = k)) rest
          have h2 : rest.length + 1 ≤ n + 1 := by simpa using hlen
          omega
        rw [ih _ P hlen']
        congr 1
        apply find?_filter_of_imp
        intro x hx
        simp only [Bool.not_eq_true', decide_eq_false_iff_not]
        intro hxk
        rw [hxk] at hx
        exact hPk hx

theorem clustersFold_sizes [DecidableEq κ] (rows : List (α × κ)) :
    listMax ((clustersFold rows).map (fun e => e.2.length)) = maxGroupSize rows := by
  apply Nat.le_antisymm
  · apply listMax_le
    intro s hs
    obtain ⟨e, he, hse⟩ := List.mem_map.mp hs
    obtain ⟨hspec, r, hrmem, hrk⟩ := clustersFold_mem_spec rows.length rows le_rfl e he
    have hsize : e.2.length = groupSize rows e.1 := by
      rw [hspec, List.length_map]
      rfl
    rw [← hse, hsize, ← hrk]
    exact le_listMax (List.mem_map_of_mem _ hrmem)
  · apply listMax_le
    intro s hs
    obtain ⟨r, hrmem, hsr⟩ := List.mem_map.mp hs
    obtain ⟨e, he, hek⟩ := clustersFold_keys_complete rows.length rows le_rfl r hrmem
    have hspec := (clustersFold_mem_spec rows.length rows le_rfl e he).1
    have hsize : e.2.length = groupSize rows e.1 := by
      rw [hspec, List.length_map]
      rfl
    rw [← hsr, ← hek, ← hsize]
    exact le_listMax (List.mem_map_of_mem _ he)

/-- Claim C3: for a non-empty candidate list, `majority_vote` groups the
candidates by their full output vector, selects the group with the most
members — breaking ties by the group discovered first in candidate order —
and returns that group's first member: equivalently, it returns exactly the
first candidate (in original order) whose group size is maximal. -/
theorem majority_vote_first_largest (ex : γ → String → Bool × String) (cands : List γ)
    (inputs : List String) (h : cands ≠ []) :
    majorityVote ex cands inputs
      = ((voteRows ex cands inputs).find?
            (fun r => groupSize (voteRows ex cands inputs) r.2
                == maxGroupSize (voteRows ex cands inputs))).map Prod.fst := by
  cases cands with
  | nil => cases h rfl
  | cons c cs =>
    show (pickLargest (clustersFold (voteRows ex (c :: cs) inputs))).bind (fun e => e.2.head?) = _
    have hrowsne : voteRows ex (c :: cs) inputs
        = (c, outputVectorWith "__ERR__" ex c inputs) :: voteRows ex cs inputs := rfl
    have hclne : clustersFold (voteRows ex (c :: cs) inputs) ≠ [] := by
      rw [hrowsne, clustersFold_cons]
      exact List.cons_ne_nil _ _
    set rows := voteRows ex (c :: cs) inputs with hrows
    unfold pickLargest
    rw [pyMaxBy_eq_find? hclne]
    have hM : listMax ((clustersFold rows).map (fun e => e.2.length)) = maxGroupSize rows :=
      clustersFold_sizes rows
    simp only [hM]
    have hcong : ∀ e ∈ clustersFold rows,
        (e.2.length == maxGroupSize rows) = (groupSize rows e.1 == maxGroupSize rows) := by
      intro e he
      have hspec := (clustersFold_mem_spec rows.length rows le_rfl e he).1
      have hsize : e.2.length = groupSize rows e.1 := by
        rw [hspec, List.length_map]
        rfl
      rw [hsize]
    rw [find?_congr_on (p := fun e : List String × List γ => e.2.length == maxGroupSize rows)
      (q := fun e : List String × List γ => groupSize rows e.1 == maxGroupSize rows)
      (clustersFold rows) hcong]
    exact clustersFold_find?_head rows.length rows
      (fun key => groupSize rows key == maxGroupSize rows) le_rfl

/-- Witness for C3: three candidates where the first two agree on output "a"
and the third answers "b"; the first member of the size-2 group is selected. -/
theorem majority_vote_first_largest_witness :
    majorityVote (fun (c : Nat) (_ : String) => (true, if c ≤ 1 then "a" else "b")) [0, 1, 2] ["x"]
      = some 0 := by
  rw [majority_vote_first_largest
    (fun (c : Nat) (_ : String) => (true, if c ≤ 1 then "a" else "b")) [0, 1, 2] ["x"]
    (by decide)]
  decide

end Veritas
